import Mathlib

/-!
Shallow embedding of `src/fs.rs` from the `rv` repository: three filesystem
utilities (`copy_folder`, `mtime_recursive`, `untar_archive`).  Filesystem
effects and results of foreign library calls (walkdir, zip, tar, metadata)
are supplied through explicit environment records, so that each Rust
function becomes a pure Lean function of its inputs and environment.
Machine integers do not occur in the Rust source except inside SHA-256,
which is modelled bit-faithfully over `Nat` with explicit reduction
modulo 2^32.
-/

/-! ## SHA-256 (model of the `sha2` crate call in `untar_archive`) -/

/-- Reduce a `Nat` to a 32-bit word. -/
def w32 (x : Nat) : Nat := x % 4294967296

/-- Right rotation of a 32-bit word by `n` bits. -/
def rotr32 (n x : Nat) : Nat := w32 ((x >>> n) ||| (x <<< (32 - n)))

def bigS0 (x : Nat) : Nat := rotr32 2 x ^^^ rotr32 13 x ^^^ rotr32 22 x

def bigS1 (x : Nat) : Nat := rotr32 6 x ^^^ rotr32 11 x ^^^ rotr32 25 x

def smallS0 (x : Nat) : Nat := rotr32 7 x ^^^ rotr32 18 x ^^^ (x >>> 3)

def smallS1 (x : Nat) : Nat := rotr32 17 x ^^^ rotr32 19 x ^^^ (x >>> 10)

def chFn (x y z : Nat) : Nat := (x &&& y) ^^^ ((x ^^^ 4294967295) &&& z)

def majFn (x y z : Nat) : Nat := (x &&& y) ^^^ (x &&& z) ^^^ (y &&& z)

/-- The 64 SHA-256 round constants. -/
def K256 : List Nat :=
  [1116352408, 1899447441, 3049323471, 3921009573, 961987163,
   1508970993, 2453635748, 2870763221, 3624381080, 310598401,
   607225278, 1426881987, 1925078388, 2162078206, 2614888103,
   3248222580, 3835390401, 4022224774, 264347078, 604807628,
   770255983, 1249150122, 1555081692, 1996064986, 2554220882,
   2821834349, 2952996808, 3210313671, 3336571891, 3584528711,
   113926993, 338241895, 666307205, 773529912, 1294757372,
   1396182291, 1695183700, 1986661051, 2177026350, 2456956037,
   2730485921, 2820302411, 3259730800, 3345764771, 3516065817,
   3600352804, 4094571909, 275423344, 430227734, 506948616,
   659060556, 883997877, 958139571, 1322822218, 1537002063,
   1747873779, 1955562222, 2024104815, 2227730452, 2361852424,
   2428436474, 2756734187, 3204031479, 3329325298]

/-- Big-endian 8-byte encoding of a length value. -/
def beBytes8 (n : Nat) : List Nat :=
  [n / 72057594037927936 % 256, n / 281474976710656 % 256,
   n / 1099511627776 % 256, n / 4294967296 % 256,
   n / 16777216 % 256, n / 65536 % 256, n / 256 % 256, n % 256]

/-- SHA-256 padding: append `0x80`, zeros, and the 64-bit big-endian bit length. -/
def padMessage (msg : List Nat) : List Nat :=
  let l := msg.length
  let zeros := (64 - (l + 9) % 64) % 64
  msg ++ [128] ++ List.replicate zeros 0 ++ beBytes8 (8 * l)

/-- Group bytes into big-endian 32-bit words. -/
def bytesToWords : List Nat → List Nat
  | b0 :: b1 :: b2 :: b3 :: rest =>
    (((b0 * 256 + b1) * 256 + b2) * 256 + b3) :: bytesToWords rest
  | _ => []

/-- Split a word list into 16-word blocks (a padded message is always a
whole number of blocks). -/
def toBlocks : List Nat → List (List Nat)
  | w0 :: w1 :: w2 :: w3 :: w4 :: w5 :: w6 :: w7 ::
    w8 :: w9 :: w10 :: w11 :: w12 :: w13 :: w14 :: w15 :: rest =>
    [w0, w1, w2, w3, w4, w5, w6, w7, w8, w9, w10, w11, w12, w13, w14, w15] ::
      toBlocks rest
  | _ => []

/-- Extend the message schedule; `ws` holds the words produced so far, most
recent first, and `k` more words are to be produced. -/
def extendW (ws : List Nat) : Nat → List Nat
  | 0 => ws
  | k + 1 =>
    let nw := w32 (smallS1 (ws.getD 1 0) + ws.getD 6 0 +
                   smallS0 (ws.getD 14 0) + ws.getD 15 0)
    extendW (nw :: ws) k

/-- The 64-word message schedule of one 16-word block. -/
def scheduleOf (block : List Nat) : List Nat := (extendW block.reverse 48).reverse

/-- The eight working variables of the SHA-256 compression function. -/
structure H8 where
  a : Nat
  b : Nat
  c : Nat
  d : Nat
  e : Nat
  f : Nat
  g : Nat
  h : Nat
deriving Repr, DecidableEq

/-- One round of the compression function; `kw` is `K[t] + W[t]` mod 2^32. -/
def roundStep (s : H8) (kw : Nat) : H8 :=
  let t1 := w32 (s.h + bigS1 s.e + chFn s.e s.f s.g + kw)
  let t2 := w32 (bigS0 s.a + majFn s.a s.b s.c)
  ⟨w32 (t1 + t2), s.a, s.b, s.c, w32 (s.d + t1), s.e, s.f, s.g⟩

/-- Compress one 16-word block into the running hash state. -/
def compressBlock (h0 : H8) (block : List Nat) : H8 :=
  let kws := (K256.zip (scheduleOf block)).map (fun p => w32 (p.1 + p.2))
  let s := kws.foldl roundStep h0
  ⟨w32 (h0.a + s.a), w32 (h0.b + s.b), w32 (h0.c + s.c), w32 (h0.d + s.d),
   w32 (h0.e + s.e), w32 (h0.f + s.f), w32 (h0.g + s.g), w32 (h0.h + s.h)⟩

/-- The SHA-256 initial hash value. -/
def initH : H8 :=
  ⟨1779033703, 3144134277, 1013904242, 2773480762,
   1359893119, 2600822924, 528734635, 1541459225⟩

/-- SHA-256 digest of a byte list, as eight 32-bit words. -/
def sha256Words (msg : List Nat) : List Nat :=
  let hh := (toBlocks (bytesToWords (padMessage msg))).foldl compressBlock initH
  [hh.a, hh.b, hh.c, hh.d, hh.e, hh.f, hh.g, hh.h]

/-- Lowercase hex digit for a value below 16. -/
def hexDigitChar (n : Nat) : Char :=
  if n < 10 then Char.ofNat (48 + n) else Char.ofNat (87 + n)

/-- Two lowercase hex digits of one byte. -/
def byteToHex (b : Nat) : List Char := [hexDigitChar (b / 16), hexDigitChar (b % 16)]

/-- Big-endian bytes of a 32-bit word. -/
def wordBytes (w : Nat) : List Nat :=
  [w / 16777216 % 256, w / 65536 % 256, w / 256 % 256, w % 256]

/-- Lowercase hex rendering of a byte list. -/
def bytesToHex (bs : List Nat) : String := String.mk ((bs.map byteToHex).flatten)

/-- Model of `format!("{hash_out:x}")` applied to `Sha256::digest(msg)`:
the lowercase hex encoding of the SHA-256 digest of `msg`. -/
def sha256Hex (msg : List Nat) : String :=
  bytesToHex (((sha256Words msg).map wordBytes).flatten)

/-! ## Errors and environments -/

/-- Model of `std::io::ErrorKind` (only the kinds the source distinguishes). -/
inductive ErrKind where
  | notFound
  | permissionDenied
  | other
deriving DecidableEq, Repr

/-- Model of `std::io::Error`: a kind together with its message. -/
structure IoError where
  kind : ErrKind
  msg : String
deriving DecidableEq, Repr

/-- The error built at `src/fs.rs:145-148`:
`std::io::Error::new(std::io::ErrorKind::Other, "not tar.gz or a .zip archive")`. -/
def unrecognizedArchiveError : IoError :=
  ⟨ErrKind.other, "not tar.gz or a .zip archive"⟩

/-- Model of `Except.toOption` restricted to our error type (Rust `Result::ok`). -/
def exOk {α : Type} (e : Except IoError α) : Option α :=
  match e with
  | .ok a => some a
  | .error _ => none

/-! ## `untar_archive` (src/fs.rs:113-164) -/

/-- One entry yielded by `fs::read_dir(dest)`: its full path and the result
of `entry.file_type()` (payload: `is_dir()`). -/
structure RawEntry where
  path : String
  isDirRes : Except IoError Bool
deriving Repr

/-- Environment of one `untar_archive` call: the results the filesystem and
the foreign archive libraries return to each call site. -/
structure ArchiveEnv where
  /-- result of `fs::create_dir_all(dest)` -/
  createDirAllRes : Except IoError Unit
  /-- result of `reader.read_to_end(&mut buffer)`: the buffered bytes -/
  readRes : Except IoError (List Nat)
  /-- combined result of `ZipArchive::new(cursor)?.extract(dest)?` -/
  zipRes : Except IoError Unit
  /-- result of `Archive::new(GzDecoder::new(..)).unpack(dest)?` -/
  tarRes : Except IoError Unit
  /-- result of `fs::read_dir(dest)` after extraction -/
  readDirRes : Except IoError (List (Except IoError RawEntry))

/-- Filesystem write actions `untar_archive` can perform, recorded as a trace. -/
inductive FsAction where
  | createDirAll : String → FsAction
  | extractZip : String → FsAction
  | extractTarGz : String → FsAction
deriving DecidableEq, Repr

/-- Final outcome of a Rust call: normal return, error return, or panic. -/
inductive Outcome (α : Type) where
  | ok : α → Outcome α
  | err : IoError → Outcome α
  | panicked : String → Outcome α
deriving Repr

/-- The body of the closure at `src/fs.rs:153-160`: `entry.ok()?`, then
`entry.file_type().ok()?.is_dir()`, keeping the entry path if it is a
directory. -/
def dirEntryPath (e : Except IoError RawEntry) : Option String :=
  match e with
  | .error _ => none
  | .ok ent =>
    match ent.isDirRes with
    | .error _ => none
    | .ok d => if d then some ent.path else none

/-- Model of `fs::read_dir(dest)?.filter_map(..).next()` (src/fs.rs:152-161): the
path of the first entry of the listing that is a directory. -/
def firstDirChild (entries : List (Except IoError RawEntry)) : Option String :=
  (entries.filterMap dirEntryPath).head?

/-- Shallow embedding of `untar_archive` (src/fs.rs:113-164).  Returns the
outcome together with the trace of filesystem write actions performed.
`buffer[..4]` panics when the buffer holds fewer than 4 bytes, which the
model records as an `Outcome.panicked`. -/
def untar_archive (env : ArchiveEnv) (dest : String) (compute_hash : Bool) :
    Outcome (Option String × Option String) × List FsAction :=
  let tr0 := [FsAction.createDirAll dest]
  match env.createDirAllRes with
  | .error e => (.err e, tr0)
  | .ok _ =>
    match env.readRes with
    | .error e => (.err e, tr0)
    | .ok buffer =>
      let hash : Option String :=
        if compute_hash then some (sha256Hex buffer) else none
      if buffer.length < 4 then
        (.panicked ("range end index 4 out of range for slice"), tr0)
      else if buffer.take 4 = [0x50, 0x4b, 0x03, 0x04] then
        match env.zipRes with
        | .error e => (.err e, tr0 ++ [FsAction.extractZip dest])
        | .ok _ =>
          match env.readDirRes with
          | .error e => (.err e, tr0 ++ [FsAction.extractZip dest])
          | .ok entries =>
            (.ok (firstDirChild entries, hash), tr0 ++ [FsAction.extractZip dest])
      else if buffer.take 2 = [0x1F, 0x8B] then
        match env.tarRes with
        | .error e => (.err e, tr0 ++ [FsAction.extractTarGz dest])
        | .ok _ =>
          match env.readDirRes with
          | .error e => (.err e, tr0 ++ [FsAction.extractTarGz dest])
          | .ok entries =>
            (.ok (firstDirChild entries, hash), tr0 ++ [FsAction.extractTarGz dest])
      else
        (.err unrecognizedArchiveError, tr0)

/-! ## `mtime_recursive` (src/fs.rs:47-108) -/

/-- Model of the metadata `mtime_recursive` reads from its root path. -/
structure Meta where
  isDir : Bool
  mtime : Int
deriving DecidableEq, Repr

/-- One entry yielded by the `WalkDir::new(folder).follow_links(true)`
iterator, with the results of the two metadata calls the source makes on it. -/
structure WalkEntry where
  /-- Result of `e.path_is_symlink()`. -/
  pathIsSymlink : Bool
  /-- mtime from `fs::symlink_metadata(e.path())` (does not follow the link) -/
  symlinkMtime : Except IoError Int
  /-- mtime from `e.metadata()` (follows the link when it is a symlink) -/
  metaMtime : Except IoError Int
deriving Repr

/-- Environment of one `mtime_recursive` call. -/
structure MtimeEnv where
  /-- result of `metadata(folder)` on the root path -/
  rootMeta : Except IoError Meta
  /-- the walkdir iterator output (root entry included, as walkdir yields it) -/
  entries : List (Except IoError WalkEntry)

/-- The body of the closure at `src/fs.rs:58-104`: the timestamp one walk
entry contributes, or `none` when its metadata cannot be read. -/
def entryMtime (e : WalkEntry) : Option Int :=
  if e.pathIsSymlink then
    match e.symlinkMtime with
    | .error _ => none
    | .ok s =>
      match e.metaMtime with
      | .ok t => some (max s t)
      | .error _ => some s
  else
    match e.metaMtime with
    | .ok m => some m
    | .error _ => none

/-- Shallow embedding of `mtime_recursive` (src/fs.rs:47-108). -/
def mtime_recursive (env : MtimeEnv) : Except IoError Int :=
  match env.rootMeta with
  | .error e => .error e
  | .ok meta =>
    if !meta.isDir then .ok meta.mtime
    else
      let candidates := (env.entries.filterMap exOk).filterMap entryMtime
      .ok (candidates.max?.getD meta.mtime)

/-- A plain (non-symlink) walk entry whose metadata reads as mtime `m`;
used to stand for the root directory entry walkdir always yields first. -/
def plainEntry (m : Int) : WalkEntry :=
  ⟨false, Except.ok m, Except.ok m⟩

/-! ## `copy_folder` (src/fs.rs:13-36) -/

/-- An item found at a path: a directory or a file with its byte content. -/
inductive Item where
  | dirItem : Item
  | fileItem : List Nat → Item
deriving DecidableEq, Repr

/-- A source directory tree: a file with byte content, or a directory with
named children. -/
inductive SrcTree where
  | file : List Nat → SrcTree
  | dir : List (String × SrcTree) → SrcTree
deriving Repr

/-- The destination filesystem: an association of paths (component lists)
to items.  Later writes overwrite earlier ones at the same path. -/
abbrev FS := List (List String × Item)

/-- Look up a path in the destination filesystem. -/
def fsGet : FS → List String → Option Item
  | [], _ => none
  | (q, it) :: rest, p => if q = p then some it else fsGet rest p

/-- Write an item at a path, overwriting any previous item there. -/
def fsSet : FS → List String → Item → FS
  | [], p, it => [(p, it)]
  | (q, jt) :: rest, p, it =>
    if q = p then (p, it) :: rest else (q, jt) :: fsSet rest p it

/-- All ancestor paths of `p`, `p` itself included (the paths
`fs::create_dir_all` creates or finds). -/
def ancestors : List String → List (List String)
  | [] => [[]]
  | a :: rest => [] :: (ancestors rest).map (fun p => a :: p)

/-- Model of `fs::create_dir_all(p)`: every ancestor of `p`, and `p` itself,
becomes a directory. -/
def createDirAll (fs : FS) (p : List String) : FS :=
  (ancestors p).foldl (fun acc q => fsSet acc q Item.dirItem) fs

mutual

/-- Look up a relative path inside a source tree. -/
def treeGet : SrcTree → List String → Option Item
  | .file c, [] => some (.fileItem c)
  | .file _, _ :: _ => none
  | .dir _, [] => some Item.dirItem
  | .dir cs, n :: rest => childGet cs n rest

/-- Look up `n :: rest` among named children. -/
def childGet : List (String × SrcTree) → String → List String → Option Item
  | [], _, _ => none
  | (m, t) :: cs, n, rest =>
    if m = n then treeGet t rest else childGet cs n rest

end

mutual

/-- Model of the `WalkDir::new(from)` iteration: every entry of the tree as
a (relative path, item) pair, root first, children in order (pre-order). -/
def walk : SrcTree → List (List String × Item)
  | .file c => [([], .fileItem c)]
  | .dir cs => ([], Item.dirItem) :: walkChildren cs

/-- Walk a list of named children in order. -/
def walkChildren : List (String × SrcTree) → List (List String × Item)
  | [] => []
  | (n, t) :: cs =>
    (walk t).map (fun pi => (n :: pi.1, pi.2)) ++ walkChildren cs

end

/-- Boolean membership of a name in a name list. -/
def strIn (n : String) : List String → Bool
  | [] => false
  | m :: rest => (m == n) || strIn n rest

/-- Distinctness check for sibling names. -/
def namesNodupChk : List String → Bool
  | [] => true
  | n :: rest => !(strIn n rest) && namesNodupChk rest

mutual

/-- Well-formedness of a source tree: sibling names are distinct (as they
are on a real filesystem). -/
def wf : SrcTree → Bool
  | .file _ => true
  | .dir cs => namesNodupChk (cs.map Prod.fst) && wfChildren cs

/-- Well-formedness of a child list. -/
def wfChildren : List (String × SrcTree) → Bool
  | [] => true
  | (_, t) :: cs => wf t && wfChildren cs

end

/-- The loop body at `src/fs.rs:20-33`: for a directory entry,
`fs::create_dir_all(out_path)`; for any other entry, `fs::copy(path, out_path)`,
where `out_path = to.join(relative)`. -/
def copyStep (toP : List String) (fs : FS) (e : List String × Item) : FS :=
  match e.2 with
  | .dirItem => createDirAll fs (toP ++ e.1)
  | .fileItem c => fsSet fs (toP ++ e.1) (.fileItem c)

/-- Shallow embedding of `copy_folder` (src/fs.rs:13-36), on its successful
execution path: walk the source tree and replay each entry into the
destination filesystem. -/
def copy_folder (t : SrcTree) (toP : List String) (fs : FS) : FS :=
  (walk t).foldl (copyStep toP) fs

/-! ## Theorems about `mtime_recursive` -/

/-- C8: for every path that exists and is not a directory, `mtime_recursive`
returns that single file's modification timestamp directly, equal to the
mtime recorded in its metadata. -/
theorem mtime_single_file (env : MtimeEnv) (m : Meta)
    (hroot : env.rootMeta = Except.ok m) (hnd : m.isDir = false) :
    mtime_recursive env = Except.ok m.mtime := by
  simp [mtime_recursive, hroot, hnd]

theorem mtime_single_file_witness :
    mtime_recursive ⟨Except.ok ⟨false, 42⟩, []⟩ = Except.ok 42 :=
  mtime_single_file ⟨Except.ok ⟨false, 42⟩, []⟩ ⟨false, 42⟩ rfl rfl

/-- C9: when the metadata read on the root path itself fails,
`mtime_recursive` returns that I/O error to the caller; the skip-on-error
tolerance applies only to entries encountered during the walk. -/
theorem mtime_root_error_propagates (env : MtimeEnv) (e : IoError)
    (hroot : env.rootMeta = Except.error e) :
    mtime_recursive env = Except.error e := by
  simp [mtime_recursive, hroot]

theorem mtime_root_error_propagates_witness :
    mtime_recursive ⟨Except.error ⟨ErrKind.notFound, "missing"⟩, []⟩ =
      Except.error ⟨ErrKind.notFound, "missing"⟩ :=
  mtime_root_error_propagates _ ⟨ErrKind.notFound, "missing"⟩ rfl

/-- C5: for a directory that is empty, or in which every walk entry's
metadata read fails (every successfully yielded entry contributes no
timestamp), `mtime_recursive` falls back to the mtime of the root directory
itself rather than returning an error. -/
theorem mtime_empty_or_all_failed (env : MtimeEnv) (rm : Meta)
    (hroot : env.rootMeta = Except.ok rm) (hdir : rm.isDir = true)
    (hall : ∀ w : WalkEntry, Except.ok w ∈ env.entries → entryMtime w = none) :
    mtime_recursive env = Except.ok rm.mtime := by
  have hnil : (env.entries.filterMap exOk).filterMap entryMtime = [] := by
    rw [List.filterMap_eq_nil_iff]
    intro w hw
    rcases List.mem_filterMap.mp hw with ⟨e, he, hee⟩
    cases e with
    | ok a =>
      simp [exOk] at hee
      exact hee ▸ hall a he
    | error err => simp [exOk] at hee
  simp [mtime_recursive, hroot, hdir, hnil]

theorem mtime_empty_or_all_failed_witness :
    mtime_recursive ⟨Except.ok ⟨true, 7⟩, []⟩ = Except.ok 7 :=
  mtime_empty_or_all_failed ⟨Except.ok ⟨true, 7⟩, []⟩ ⟨true, 7⟩ rfl rfl
    (fun w hw => by simp at hw)

/-- C4: for every walk entry that is itself a symlink whose own (lstat)
metadata and target metadata both read successfully, the contributed
timestamp is the larger of the symlink's own mtime and the target's mtime —
for all values of the two timestamps, in either order; and in particular,
for a directory whose walk yields its root entry and such a symlink
repointed more recently than both its target's mtime and the root's mtime,
the result is the symlink's own change time, not the older target's time. -/
theorem mtime_symlink_repointed (rm : Meta) (r s t : Int) (e : WalkEntry)
    (hdir : rm.isDir = true) (hsym : e.pathIsSymlink = true)
    (hs : e.symlinkMtime = Except.ok s) (ht : e.metaMtime = Except.ok t) :
    entryMtime e = some (max s t) ∧
    (t ≤ s → r ≤ s →
      mtime_recursive ⟨Except.ok rm, [Except.ok (plainEntry r), Except.ok e]⟩ =
        Except.ok s) := by
  have h1 : entryMtime e = some (max s t) := by
    simp [entryMtime, hsym, hs, ht]
  refine ⟨h1, fun hts hr => ?_⟩
  have hmax : max s t = s := max_eq_left hts
  have h2 : entryMtime (plainEntry r) = some r := by
    simp [entryMtime, plainEntry]
  have hc : (([Except.ok (plainEntry r), Except.ok e] :
      List (Except IoError WalkEntry)).filterMap exOk).filterMap entryMtime =
      [r, s] := by
    simp [exOk, List.filterMap_cons, h1, h2, hmax]
  simp [mtime_recursive, hdir, hc, List.max?]
  exact hr

theorem mtime_symlink_repointed_witness :
    (entryMtime ⟨true, Except.ok 100, Except.ok 20⟩ = some (max 100 20) ∧
      ((20 : Int) ≤ 100 → (10 : Int) ≤ 100 →
        mtime_recursive ⟨Except.ok ⟨true, 10⟩, [Except.ok (plainEntry 10),
          Except.ok ⟨true, Except.ok 100, Except.ok 20⟩]⟩ = Except.ok 100)) ∧
    entryMtime ⟨true, Except.ok 5, Except.ok 90⟩ = some (max 5 90) :=
  ⟨mtime_symlink_repointed ⟨true, 10⟩ 10 100 20
      ⟨true, Except.ok 100, Except.ok 20⟩ rfl rfl rfl rfl,
   (mtime_symlink_repointed ⟨true, 10⟩ 10 5 90
      ⟨true, Except.ok 5, Except.ok 90⟩ rfl rfl rfl rfl).1⟩

/-! ## Theorems about `untar_archive` -/

/-- C1: for every input byte stream shorter than 4 bytes, `untar_archive`
does NOT return the unrecognized-archive-format error: the slice expression
`buffer[..4]` at src/fs.rs:131 panics on an out-of-bounds range before the
match is reached.  This theorem evaluates the code on such inputs and shows
the panic. -/
theorem untar_short_buffer_panics (env : ArchiveEnv) (dest : String)
    (ch : Bool) (buffer : List Nat)
    (hc : env.createDirAllRes = Except.ok ())
    (hr : env.readRes = Except.ok buffer) (hlen : buffer.length < 4) :
    (untar_archive env dest ch).1 =
      Outcome.panicked ("range end index 4 out of range for slice") := by
  simp [untar_archive, hc, hr, hlen]

theorem untar_short_buffer_panics_witness :
    (untar_archive ⟨Except.ok (), Except.ok [], Except.ok (), Except.ok (),
        Except.ok []⟩ "dest" true).1 =
      Outcome.panicked ("range end index 4 out of range for slice") :=
  untar_short_buffer_panics
    ⟨Except.ok (), Except.ok [], Except.ok (), Except.ok (), Except.ok []⟩
    "dest" true [] rfl rfl (by decide)

/-- C2: for every buffer of at least 4 bytes whose first 4 bytes are neither
the zip signature `50 4B 03 04` nor a gzip prefix `1F 8B`, `untar_archive`
returns the distinct unrecognized-format error value (kind `Other`, with a
human-readable message), performs no extraction, and its write trace holds
nothing beyond the creation of `dest` itself. -/
theorem untar_unrecognized_format (env : ArchiveEnv) (dest : String)
    (ch : Bool) (buffer : List Nat)
    (hc : env.createDirAllRes = Except.ok ())
    (hr : env.readRes = Except.ok buffer)
    (hlen : 4 ≤ buffer.length)
    (hzip : buffer.take 4 ≠ [0x50, 0x4b, 0x03, 0x04])
    (hgz : buffer.take 2 ≠ [0x1F, 0x8B]) :
    untar_archive env dest ch =
      (Outcome.err unrecognizedArchiveError, [FsAction.createDirAll dest]) ∧
    unrecognizedArchiveError.kind = ErrKind.other ∧
    unrecognizedArchiveError.msg = "not tar.gz or a .zip archive" := by
  have h4 : ¬ buffer.length < 4 := Nat.not_lt.mpr hlen
  refine ⟨?_, rfl, rfl⟩
  simp [untar_archive, hc, hr, h4, hzip, hgz]

theorem untar_unrecognized_format_witness :
    untar_archive ⟨Except.ok (), Except.ok [0, 0, 0, 0], Except.ok (),
        Except.ok (), Except.ok []⟩ "dest" false =
      (Outcome.err unrecognizedArchiveError, [FsAction.createDirAll ("dest")]) ∧
    unrecognizedArchiveError.kind = ErrKind.other ∧
    unrecognizedArchiveError.msg = "not tar.gz or a .zip archive" :=
  untar_unrecognized_format
    ⟨Except.ok (), Except.ok [0, 0, 0, 0], Except.ok (), Except.ok (),
      Except.ok []⟩
    "dest" false [0, 0, 0, 0] rfl rfl (by decide) (by decide) (by decide)

/-- C10: on the unrecognized-format path the outcome is the bare error and
is literally identical whether or not `compute_hash` was requested: the
digest computed over the buffered bytes is discarded, never delivered. -/
theorem untar_unrecognized_discards_hash (env : ArchiveEnv) (dest : String)
    (buffer : List Nat)
    (hc : env.createDirAllRes = Except.ok ())
    (hr : env.readRes = Except.ok buffer)
    (hlen : 4 ≤ buffer.length)
    (hzip : buffer.take 4 ≠ [0x50, 0x4b, 0x03, 0x04])
    (hgz : buffer.take 2 ≠ [0x1F, 0x8B]) :
    untar_archive env dest true = untar_archive env dest false ∧
    (untar_archive env dest true).1 = Outcome.err unrecognizedArchiveError := by
  have h4 : ¬ buffer.length < 4 := Nat.not_lt.mpr hlen
  constructor
  · simp [untar_archive, hc, hr, h4, hzip, hgz]
  · simp [untar_archive, hc, hr, h4, hzip, hgz]

theorem untar_unrecognized_discards_hash_witness :
    untar_archive ⟨Except.ok (), Except.ok [1, 2, 3, 4, 5], Except.ok (),
        Except.ok (), Except.ok []⟩ "d" true =
      untar_archive ⟨Except.ok (), Except.ok [1, 2, 3, 4, 5], Except.ok (),
        Except.ok (), Except.ok []⟩ "d" false ∧
    (untar_archive ⟨Except.ok (), Except.ok [1, 2, 3, 4, 5], Except.ok (),
        Except.ok (), Except.ok []⟩ "d" true).1 =
      Outcome.err unrecognizedArchiveError :=
  untar_unrecognized_discards_hash
    ⟨Except.ok (), Except.ok [1, 2, 3, 4, 5], Except.ok (), Except.ok (),
      Except.ok []⟩
    "d" [1, 2, 3, 4, 5] rfl rfl (by decide) (by decide) (by decide)

/-- C3: whenever `untar_archive` returns normally, the hash component of the
result equals the lowercase hex-encoded SHA-256 digest of the exact raw
buffered input bytes when `compute_hash` is true — the same value on either
extraction branch, computed before extraction — and is `none` when
`compute_hash` is false. -/
theorem untar_hash_of_raw_bytes (env : ArchiveEnv) (dest : String) (ch : Bool)
    (p h : Option String) (tr : List FsAction) (buffer : List Nat)
    (hr : env.readRes = Except.ok buffer)
    (hres : untar_archive env dest ch = (Outcome.ok (p, h), tr)) :
    h = if ch then some (sha256Hex buffer) else none := by
  simp only [untar_archive, hr] at hres
  split at hres
  · simp at hres
  · split at hres
    · simp at hres
    · split at hres
      · split at hres
        · simp at hres
        · split at hres
          · simp at hres
          · rw [Prod.mk.injEq] at hres
            obtain ⟨h1, -⟩ := hres
            rw [Outcome.ok.injEq, Prod.mk.injEq] at h1
            exact h1.2.symm
      · split at hres
        · split at hres
          · simp at hres
          · split at hres
            · simp at hres
            · rw [Prod.mk.injEq] at hres
              obtain ⟨h1, -⟩ := hres
              rw [Outcome.ok.injEq, Prod.mk.injEq] at h1
              exact h1.2.symm
        · simp at hres

theorem untar_hash_of_raw_bytes_witness :
    (some ("8dcc7e601606217f3b754766511182a916b17e9a26a94c9d887104eba92e9bb2") :
        Option String) =
      if true then some (sha256Hex [0x50, 0x4b, 0x03, 0x04]) else none :=
  untar_hash_of_raw_bytes
    ⟨Except.ok (), Except.ok [0x50, 0x4b, 0x03, 0x04], Except.ok (),
      Except.ok (), Except.ok []⟩
    "dest" true none
    (some ("8dcc7e601606217f3b754766511182a916b17e9a26a94c9d887104eba92e9bb2"))
    [FsAction.createDirAll ("dest"), FsAction.extractZip ("dest")]
    [0x50, 0x4b, 0x03, 0x04] rfl rfl

/-- Helper for C7: if no entry of the destination listing is a directory,
the scan at src/fs.rs:152-161 yields nothing. -/
theorem firstDirChild_none_of_no_dir (entries : List (Except IoError RawEntry))
    (hall : ∀ e ∈ entries, dirEntryPath e = none) :
    firstDirChild entries = none := by
  unfold firstDirChild
  rw [List.filterMap_eq_nil_iff.mpr hall]
  rfl

/-- C7: on every successful extraction, the path component of the result is
the first immediate child of `dest` that is a directory, in the order the
directory listing yields, and is `none` when no immediate child of `dest`
is a directory. -/
theorem untar_first_dir_child (env : ArchiveEnv) (dest : String) (ch : Bool)
    (p h : Option String) (tr : List FsAction)
    (hres : untar_archive env dest ch = (Outcome.ok (p, h), tr)) :
    ∃ entries, env.readDirRes = Except.ok entries ∧
      p = firstDirChild entries ∧
      ((∀ e ∈ entries, dirEntryPath e = none) → p = none) := by
  simp only [untar_archive] at hres
  split at hres
  · simp at hres
  · split at hres
    · simp at hres
    · split at hres
      · simp at hres
      · split at hres
        · split at hres
          · simp at hres
          · split at hres
            · simp at hres
            · rename_i entries heq
              rw [Prod.mk.injEq] at hres
              obtain ⟨h1, -⟩ := hres
              rw [Outcome.ok.injEq, Prod.mk.injEq] at h1
              refine ⟨entries, heq, h1.1.symm, fun hall => ?_⟩
              rw [← h1.1]
              exact firstDirChild_none_of_no_dir entries hall
        · split at hres
          · split at hres
            · simp at hres
            · split at hres
              · simp at hres
              · rename_i entries heq
                rw [Prod.mk.injEq] at hres
                obtain ⟨h1, -⟩ := hres
                rw [Outcome.ok.injEq, Prod.mk.injEq] at h1
                refine ⟨entries, heq, h1.1.symm, fun hall => ?_⟩
                rw [← h1.1]
                exact firstDirChild_none_of_no_dir entries hall
          · simp at hres

theorem untar_first_dir_child_witness :
    ∃ entries,
      (⟨Except.ok (), Except.ok [0x1F, 0x8B, 0, 0], Except.ok (), Except.ok (),
        Except.ok [Except.ok ⟨"dest/pkg", Except.ok true⟩]⟩ :
          ArchiveEnv).readDirRes = Except.ok entries ∧
      (some ("dest/pkg") : Option String) = firstDirChild entries ∧
      ((∀ e ∈ entries, dirEntryPath e = none) →
        (some ("dest/pkg") : Option String) = none) :=
  untar_first_dir_child
    ⟨Except.ok (), Except.ok [0x1F, 0x8B, 0, 0], Except.ok (), Except.ok (),
      Except.ok [Except.ok ⟨"dest/pkg", Except.ok true⟩]⟩
    "dest" false (some ("dest/pkg")) none
    [FsAction.createDirAll ("dest"), FsAction.extractTarGz ("dest")]
    rfl

/-! ## Theorems about `copy_folder` -/

/-- Reading a path after writing one: `fsSet` changes exactly the written
path. -/
theorem fsGet_fsSet (fs : FS) (p : List String) (it : Item) (q : List String) :
    fsGet (fsSet fs p it) q = if p = q then some it else fsGet fs q := by
  induction fs with
  | nil =>
    by_cases hpq : p = q <;> simp [fsSet, fsGet, hpq]
  | cons e rest ih =>
    obtain ⟨r, jt⟩ := e
    by_cases hrp : r = p
    · subst hrp
      by_cases hpq : r = q <;> simp [fsSet, fsGet, hpq]
    · by_cases hrq : r = q
      · subst hrq
        have hpq : p ≠ r := fun hh => hrp hh.symm
        simp [fsSet, fsGet, hrp, hpq]
      · simp [fsSet, fsGet, hrp, hrq, ih]

/-- Reading a path after writing the same item at every path of a list. -/
theorem fsGet_foldl_set (L : List (List String)) (fs : FS) (v : Item)
    (p : List String) :
    fsGet (L.foldl (fun acc q => fsSet acc q v) fs) p =
      if p ∈ L then some v else fsGet fs p := by
  induction L generalizing fs with
  | nil => simp
  | cons q L ih =>
    rw [List.foldl_cons, ih]
    by_cases hp : p ∈ L
    · simp [hp]
    · by_cases hqp : q = p
      · subst hqp
        simp [hp, fsGet_fsSet]
      · simp [hp, fsGet_fsSet, hqp, Ne.symm hqp]

/-- The ancestor list of `p` holds exactly the lists that extend to `p`. -/
theorem mem_ancestors (q p : List String) :
    q ∈ ancestors p ↔ ∃ r, q ++ r = p := by
  induction p generalizing q with
  | nil =>
    simp only [ancestors, List.mem_singleton]
    constructor
    · rintro rfl; exact ⟨[], rfl⟩
    · rintro ⟨r, hr⟩
      rcases List.append_eq_nil.mp hr with ⟨h1, -⟩
      exact h1
  | cons a rest ih =>
    simp only [ancestors, List.mem_cons, List.mem_map]
    constructor
    · rintro (rfl | ⟨q', hq', rfl⟩)
      · exact ⟨a :: rest, rfl⟩
      · rcases (ih q').mp hq' with ⟨r, hr⟩
        exact ⟨r, by simp [hr]⟩
    · rintro ⟨r, hr⟩
      cases q with
      | nil => exact Or.inl rfl
      | cons b q' =>
        rw [List.cons_append, List.cons.injEq] at hr
        obtain ⟨rfl, hr2⟩ := hr
        exact Or.inr ⟨q', (ih q').mpr ⟨r, hr2⟩, rfl⟩

/-- Reading a path after `createDirAll`. -/
theorem fsGet_createDirAll (fs : FS) (p q : List String) :
    fsGet (createDirAll fs p) q =
      if q ∈ ancestors p then some Item.dirItem else fsGet fs q := by
  unfold createDirAll
  exact fsGet_foldl_set (ancestors p) fs Item.dirItem q

/-- Correctness of `strIn` as a membership test. -/
theorem strIn_iff_mem (n : String) (l : List String) :
    strIn n l = true ↔ n ∈ l := by
  induction l with
  | nil => simp [strIn]
  | cons m rest ih =>
    rw [strIn, Bool.or_eq_true, beq_iff_eq, ih, List.mem_cons]
    constructor
    · rintro (rfl | hh)
      · exact Or.inl rfl
      · exact Or.inr hh
    · rintro (rfl | hh)
      · exact Or.inl rfl
      · exact Or.inr hh

/-- Every path walked below a child list starts with one of its names. -/
theorem walkChildren_shape (cs : List (String × SrcTree)) (rel : List String)
    (it : Item) (hm : (rel, it) ∈ walkChildren cs) :
    ∃ n rest, rel = n :: rest ∧ n ∈ cs.map Prod.fst := by
  induction cs with
  | nil => simp [walkChildren] at hm
  | cons e cs ih =>
    obtain ⟨m, t⟩ := e
    rw [walkChildren, List.mem_append] at hm
    rcases hm with hm | hm
    · rcases List.mem_map.mp hm with ⟨⟨p, jt⟩, -, hpe⟩
      rw [Prod.mk.injEq] at hpe
      exact ⟨m, p, hpe.1.symm, by simp⟩
    · rcases ih hm with ⟨n, rest, hrel, hn⟩
      exact ⟨n, rest, hrel, by simp [hn]⟩

mutual

/-- Soundness of the walk: on a well-formed tree, every walked pair is what
`treeGet` finds at that relative path. -/
theorem walk_sound : ∀ (t : SrcTree), wf t = true →
    ∀ rel it, (rel, it) ∈ walk t → treeGet t rel = some it
  | .file c, _, rel, it, hm => by
    rw [walk, List.mem_singleton, Prod.mk.injEq] at hm
    obtain ⟨rfl, rfl⟩ := hm
    rfl
  | .dir cs, hwf, rel, it, hm => by
    rw [wf, Bool.and_eq_true] at hwf
    rw [walk, List.mem_cons] at hm
    rcases hm with hm | hm
    · rw [Prod.mk.injEq] at hm
      obtain ⟨rfl, rfl⟩ := hm
      rfl
    · rcases walkChildren_shape cs rel it hm with ⟨n, rest, rfl, -⟩
      rw [treeGet]
      exact walkChildren_sound cs hwf.2 hwf.1 n rest it hm

/-- Soundness of the walk over a child list with distinct names. -/
theorem walkChildren_sound : ∀ (cs : List (String × SrcTree)),
    wfChildren cs = true → namesNodupChk (cs.map Prod.fst) = true →
    ∀ n rest it, (n :: rest, it) ∈ walkChildren cs →
      childGet cs n rest = some it
  | [], _, _, n, rest, it, hm => by simp [walkChildren] at hm
  | (m, t) :: cs, hwf, hnd, n, rest, it, hm => by
    rw [wfChildren, Bool.and_eq_true] at hwf
    rw [List.map_cons, namesNodupChk, Bool.and_eq_true] at hnd
    rw [walkChildren, List.mem_append] at hm
    rcases hm with hm | hm
    · rcases List.mem_map.mp hm with ⟨⟨p, jt⟩, hmem, hpe⟩
      rw [Prod.mk.injEq] at hpe
      obtain ⟨hcons, rfl⟩ := hpe
      rw [List.cons.injEq] at hcons
      obtain ⟨rfl, rfl⟩ := hcons
      rw [childGet, if_pos rfl]
      exact walk_sound t hwf.1 p jt hmem
    · rcases walkChildren_shape cs (n :: rest) it hm with ⟨n', rest', hcons, hn'⟩
      rw [List.cons.injEq] at hcons
      obtain ⟨rfl, rfl⟩ := hcons
      have hmn : m ≠ n := by
        intro hh
        subst hh
        have hc := hnd.1
        rw [Bool.not_eq_eq_eq_not, Bool.not_true] at hc
        rw [← strIn_iff_mem] at hn'
        rw [hn'] at hc
        exact Bool.true_eq_false.mp hc
      rw [childGet, if_neg hmn]
      exact walkChildren_sound cs hwf.2 hnd.2 n rest it hm

end

mutual

/-- Completeness of the walk: everything `treeGet` finds is walked. -/
theorem walk_complete : ∀ (t : SrcTree) (rel : List String) (it : Item),
    treeGet t rel = some it → (rel, it) ∈ walk t
  | .file c, [], it, hg => by
    rw [treeGet, Option.some.injEq] at hg
    subst hg
    simp [walk]
  | .file c, n :: rest, it, hg => by
    rw [treeGet] at hg
    exact absurd hg (by simp)
  | .dir cs, [], it, hg => by
    rw [treeGet, Option.some.injEq] at hg
    subst hg
    simp [walk]
  | .dir cs, n :: rest, it, hg => by
    rw [treeGet] at hg
    rw [walk, List.mem_cons]
    exact Or.inr (childGet_complete cs n rest it hg)

/-- Completeness of the walk over a child list. -/
theorem childGet_complete : ∀ (cs : List (String × SrcTree)) (n : String)
    (rest : List String) (it : Item),
    childGet cs n rest = some it → (n :: rest, it) ∈ walkChildren cs
  | [], n, rest, it, hg => by
    rw [childGet] at hg
    exact absurd hg (by simp)
  | (m, t) :: cs, n, rest, it, hg => by
    rw [childGet] at hg
    rw [walkChildren, List.mem_append]
    by_cases hmn : m = n
    · subst hmn
      rw [if_pos rfl] at hg
      exact Or.inl (List.mem_map.mpr ⟨(rest, it), walk_complete t rest it hg, rfl⟩)
    · rw [if_neg hmn] at hg
      exact Or.inr (childGet_complete cs n rest it hg)

end

mutual

/-- Every strict ancestor of an existing path is a directory of the tree. -/
theorem treeGet_anc_dir : ∀ (t : SrcTree) (q : List String) (n : String)
    (r : List String) (it : Item),
    treeGet t (q ++ n :: r) = some it → treeGet t q = some Item.dirItem
  | .file c, [], n, r, it, hg => by
    rw [List.nil_append, treeGet] at hg
    exact absurd hg (by simp)
  | .file c, m :: q', n, r, it, hg => by
    rw [List.cons_append, treeGet] at hg
    exact absurd hg (by simp)
  | .dir cs, [], n, r, it, hg => by rw [treeGet]
  | .dir cs, m :: q', n, r, it, hg => by
    rw [List.cons_append, treeGet] at hg
    rw [treeGet]
    exact childGet_anc_dir cs m q' n r it hg

/-- Ancestor-directory property through a child list. -/
theorem childGet_anc_dir : ∀ (cs : List (String × SrcTree)) (m : String)
    (q' : List String) (n : String) (r : List String) (it : Item),
    childGet cs m (q' ++ n :: r) = some it →
      childGet cs m q' = some Item.dirItem
  | [], m, q', n, r, it, hg => by
    rw [childGet] at hg
    exact absurd hg (by simp)
  | (m0, t) :: cs, m, q', n, r, it, hg => by
    rw [childGet] at hg
    rw [childGet]
    by_cases hm : m0 = m
    · rw [if_pos hm] at hg
      rw [if_pos hm]
      exact treeGet_anc_dir t q' n r it hg
    · rw [if_neg hm] at hg
      rw [if_neg hm]
      exact childGet_anc_dir cs m q' n r it hg

end

/-- One copy step establishes its own entry at the mirrored path. -/
theorem copyStep_sets (toP : List String) (fs : FS) (rel : List String)
    (it : Item) :
    fsGet (copyStep toP fs (rel, it)) (toP ++ rel) = some it := by
  cases it with
  | dirItem =>
    simp only [copyStep]
    rw [fsGet_createDirAll,
      if_pos ((mem_ancestors _ _).mpr ⟨[], List.append_nil _⟩)]
  | fileItem c =>
    simp only [copyStep]
    rw [fsGet_fsSet, if_pos rfl]

/-- A copy step for a tree-consistent entry never clobbers a previously
established tree-consistent path. -/
theorem copyStep_preserves (t : SrcTree) (toP : List String) (fs : FS)
    (rel : List String) (it : Item) (hit : treeGet t rel = some it)
    (rel₀ : List String) (it₀ : Item) (h0 : treeGet t rel₀ = some it₀)
    (hfs : fsGet fs (toP ++ rel₀) = some it₀) :
    fsGet (copyStep toP fs (rel, it)) (toP ++ rel₀) = some it₀ := by
  cases it with
  | dirItem =>
    simp only [copyStep]
    rw [fsGet_createDirAll]
    by_cases hmem : (toP ++ rel₀) ∈ ancestors (toP ++ rel)
    · rw [if_pos hmem]
      rcases (mem_ancestors _ _).mp hmem with ⟨r, hr⟩
      rw [List.append_assoc] at hr
      have hrr : rel₀ ++ r = rel := List.append_cancel_left hr
      cases r with
      | nil =>
        rw [List.append_nil] at hrr
        subst hrr
        rw [hit, Option.some.injEq] at h0
        rw [← h0]
      | cons n r' =>
        have hdir : treeGet t rel₀ = some Item.dirItem := by
          rw [← hrr] at hit
          exact treeGet_anc_dir t rel₀ n r' Item.dirItem hit
        rw [hdir, Option.some.injEq] at h0
        rw [← h0]
    · rw [if_neg hmem]
      exact hfs
  | fileItem c =>
    simp only [copyStep]
    rw [fsGet_fsSet]
    by_cases heq : toP ++ rel = toP ++ rel₀
    · rw [if_pos heq]
      have hre : rel = rel₀ := List.append_cancel_left heq
      subst hre
      rw [hit, Option.some.injEq] at h0
      rw [← h0]
    · rw [if_neg heq]
      exact hfs

/-- Folding tree-consistent copy steps preserves established paths and
establishes every processed entry. -/
theorem foldl_copyStep_spec (t : SrcTree) (toP : List String)
    (L : List (List String × Item)) :
    ∀ (fs : FS), (∀ e ∈ L, treeGet t e.1 = some e.2) →
      (∀ rel₀ it₀, treeGet t rel₀ = some it₀ →
        fsGet fs (toP ++ rel₀) = some it₀ →
        fsGet (L.foldl (copyStep toP) fs) (toP ++ rel₀) = some it₀) ∧
      (∀ e ∈ L, fsGet (L.foldl (copyStep toP) fs) (toP ++ e.1) = some e.2) := by
  induction L with
  | nil =>
    intro fs hL
    exact ⟨fun rel₀ it₀ _ hfs => hfs, by simp⟩
  | cons e L ih =>
    intro fs hL
    obtain ⟨rel, it⟩ := e
    have hhd : treeGet t rel = some it := hL _ (List.mem_cons_self _ _)
    have htl : ∀ e ∈ L, treeGet t e.1 = some e.2 :=
      fun e he => hL e (List.mem_cons_of_mem _ he)
    rw [List.foldl_cons]
    refine ⟨?_, ?_⟩
    · intro rel₀ it₀ h0 hfs
      exact (ih (copyStep toP fs (rel, it)) htl).1 rel₀ it₀ h0
        (copyStep_preserves t toP fs rel it hhd rel₀ it₀ h0 hfs)
    · intro e' he'
      rcases List.mem_cons.mp he' with heq | hmem
      · subst heq
        exact (ih (copyStep toP fs (rel, it)) htl).1 rel it hhd
          (copyStep_sets toP fs rel it)
      · exact (ih (copyStep toP fs (rel, it)) htl).2 e' hmem

/-- A copy step for a tree-consistent entry writes only tree-consistent
items under the destination path. -/
theorem copyStep_inv (t : SrcTree) (toP : List String) (fs : FS)
    (rel : List String) (it : Item) (hit : treeGet t rel = some it)
    (hinv : ∀ rel₀ it₀, fsGet fs (toP ++ rel₀) = some it₀ →
      treeGet t rel₀ = some it₀)
    (rel₀ : List String) (it₀ : Item)
    (hfs : fsGet (copyStep toP fs (rel, it)) (toP ++ rel₀) = some it₀) :
    treeGet t rel₀ = some it₀ := by
  cases it with
  | dirItem =>
    simp only [copyStep] at hfs
    rw [fsGet_createDirAll] at hfs
    by_cases hmem : (toP ++ rel₀) ∈ ancestors (toP ++ rel)
    · rw [if_pos hmem] at hfs
      rw [Option.some.injEq] at hfs
      rcases (mem_ancestors _ _).mp hmem with ⟨r, hr⟩
      rw [List.append_assoc] at hr
      have hrr : rel₀ ++ r = rel := List.append_cancel_left hr
      cases r with
      | nil =>
        rw [List.append_nil] at hrr
        subst hrr
        rw [hit, ← hfs]
      | cons n r' =>
        rw [← hrr] at hit
        rw [treeGet_anc_dir t rel₀ n r' Item.dirItem hit, ← hfs]
    · rw [if_neg hmem] at hfs
      exact hinv rel₀ it₀ hfs
  | fileItem c =>
    simp only [copyStep] at hfs
    rw [fsGet_fsSet] at hfs
    by_cases heq : toP ++ rel = toP ++ rel₀
    · rw [if_pos heq] at hfs
      rw [Option.some.injEq] at hfs
      have hre : rel = rel₀ := List.append_cancel_left heq
      subst hre
      rw [hit, ← hfs]
    · rw [if_neg heq] at hfs
      exact hinv rel₀ it₀ hfs

/-- Folding tree-consistent copy steps keeps the destination consistent with
the source tree. -/
theorem foldl_copyStep_inv (t : SrcTree) (toP : List String)
    (L : List (List String × Item)) :
    ∀ (fs : FS), (∀ e ∈ L, treeGet t e.1 = some e.2) →
      (∀ rel₀ it₀, fsGet fs (toP ++ rel₀) = some it₀ →
        treeGet t rel₀ = some it₀) →
      ∀ rel₀ it₀, fsGet (L.foldl (copyStep toP) fs) (toP ++ rel₀) = some it₀ →
        treeGet t rel₀ = some it₀ := by
  induction L with
  | nil =>
    intro fs hL hinv
    exact hinv
  | cons e L ih =>
    intro fs hL hinv
    obtain ⟨rel, it⟩ := e
    rw [List.foldl_cons]
    exact ih (copyStep toP fs (rel, it))
      (fun e he => hL e (List.mem_cons_of_mem _ he))
      (copyStep_inv t toP fs rel it (hL _ (List.mem_cons_self _ _)) hinv)

/-- C6: a successful `copy_folder` of a well-formed source tree into an
empty destination produces exactly the source's relative paths under the
destination: every directory path of the source exists as a directory
(ancestors included, since they are directories of the source walked
first), every file exists with byte-identical content, and nothing else
appears under the destination.  Stated as: reading any mirrored path in
the destination equals looking up the relative path in the source tree. -/
theorem copy_folder_mirrors (t : SrcTree) (hwf : wf t = true)
    (toP : List String) (rel : List String) :
    fsGet (copy_folder t toP []) (toP ++ rel) = treeGet t rel := by
  have hL : ∀ e ∈ walk t, treeGet t e.1 = some e.2 := by
    intro e he
    exact walk_sound t hwf e.1 e.2 (by simpa using he)
  cases hg : treeGet t rel with
  | some it =>
    have hmem : (rel, it) ∈ walk t := walk_complete t rel it hg
    exact (foldl_copyStep_spec t toP (walk t) [] hL).2 (rel, it) hmem
  | none =>
    cases hfs : fsGet (copy_folder t toP []) (toP ++ rel) with
    | none => rfl
    | some w =>
      have hstar := foldl_copyStep_inv t toP (walk t) [] hL
        (fun rel₀ it₀ hc => by simp [fsGet] at hc) rel w hfs
      rw [hg] at hstar
      exact absurd hstar (by simp)

theorem copy_folder_mirrors_witness :
    wf (SrcTree.dir [("pkg", SrcTree.dir [("data", SrcTree.file [10, 20, 30])]),
      ("readme", SrcTree.file [65])]) = true ∧
    fsGet (copy_folder
        (SrcTree.dir [("pkg", SrcTree.dir [("data", SrcTree.file [10, 20, 30])]),
          ("readme", SrcTree.file [65])]) ["dest"] [])
        (["dest"] ++ ["pkg", "data"]) =
      treeGet
        (SrcTree.dir [("pkg", SrcTree.dir [("data", SrcTree.file [10, 20, 30])]),
          ("readme", SrcTree.file [65])]) ["pkg", "data"] :=
  ⟨by decide,
   copy_folder_mirrors
     (SrcTree.dir [("pkg", SrcTree.dir [("data", SrcTree.file [10, 20, 30])]),
       ("readme", SrcTree.file [65])])
     (by decide) ["dest"] ["pkg", "data"]⟩
